import Mathlib

/-!
Verification development for the blame ("pickaxe") engine in
`src/builtin-pickaxe.c`.

The C data structures are shallowly embedded:

* an `origin` (one blob in one commit) becomes the structure `Origin`;
  commit digests, paths and blob digests are interned as natural numbers,
  and the field `oid` models the allocation identity of the C object so
  that pointer comparison (`e->suspect == origin`) can be distinguished
  from `cmp_suspect` (which compares commit digest and path);
* the doubly linked list of `blame_entry` records hanging off the
  scoreboard becomes a `List BlameEntry`; the `prev`/`next` pointers are
  implicit in the list structure, so "the doubly linked pointers are
  consistent" is inherent in the model;
* C `int` line numbers become `Int` (they can go negative transiently,
  e.g. the 0-based conversion `off1--` in the patch adapter), C
  `unsigned` scores become `Nat`.

Every definition mirrors one function of the source file; the comment on
each definition names it.
-/

/-- One blob in a commit: `struct origin`.  `oid` is the allocation
identity of the C object (two origins are pointer-equal iff their `oid`
coincide); `commit`, `path` and `blob_sha1` intern the commit digest, the
path string and the blob digest. -/
structure Origin where
  oid : Nat
  commit : Nat
  path : Nat
  blob_sha1 : Nat
deriving DecidableEq, Repr, Inhabited

/-- One record of the blame partition sequence: `struct blame_entry`
without the `prev`/`next` pointers (implicit in the enclosing list). -/
structure BlameEntry where
  lno : Int
  num_lines : Int
  suspect : Origin
  guilty : Bool
  s_lno : Int
  score : Nat
deriving DecidableEq, Repr, Inhabited

/-- `cmp_suspect`: true iff the two origins DIFFER (the C function
returns nonzero on difference), comparing commit digest then path. -/
def cmp_suspect (a b : Origin) : Bool :=
  !(a.commit == b.commit && a.path == b.path)

/-- `coalesce`: fuse an adjacent pair when the suspects compare equal,
the guilty flags match and the source lines are contiguous; the merged
entry's score cache is invalidated and the merged entry is compared with
its new successor again (`next = ent` in the C loop). -/
def coalesce : List BlameEntry → List BlameEntry
  | [] => []
  | [e] => [e]
  | e :: f :: rest =>
    if !cmp_suspect e.suspect f.suspect && e.guilty == f.guilty
        && e.s_lno + e.num_lines == f.s_lno then
      coalesce ({ e with num_lines := e.num_lines + f.num_lines,
                         score := 0 } :: rest)
    else
      e :: coalesce (f :: rest)
termination_by l => l.length
decreasing_by
  all_goals simp

/-- `add_blame_entry`: insert `e` before the first entry whose `lno` is
not below `e.lno` (the C loop walks `prev` over entries with
`ent->lno < e->lno`). -/
def add_blame_entry (l : List BlameEntry) (e : BlameEntry) : List BlameEntry :=
  match l with
  | [] => [e]
  | x :: xs => if x.lno < e.lno then x :: add_blame_entry xs e else e :: x :: xs

/-- One slot of the `struct blame_entry split[3]` array used by
`split_overlap`/`split_blame`; `suspect = none` models the NULL suspect
left by `memset` (the "this part is absent / split not applicable"
flag).  `guilty` and `score` of a split slot are always zero. -/
structure SplitPart where
  suspect : Option Origin
  lno : Int
  s_lno : Int
  num_lines : Int
deriving DecidableEq, Repr, Inhabited

/-- Materialize a split slot as a list entry, as the `memcpy` in
`split_blame`/`dup_entry` does.  Only called on slots whose suspect is
set; `getD` supplies a dummy for totality. -/
def partEntry (p : SplitPart) : BlameEntry :=
  { lno := p.lno, num_lines := p.num_lines, suspect := p.suspect.getD default,
    guilty := false, s_lno := p.s_lno, score := 0 }

/-- `split_overlap`: compute the three-way split of `e` against the
chunk `[tlno, same)` of suspect lines known to come from `parent`, with
parent line `plno` corresponding to suspect line `tlno`.  Mirrors the
source: the pre part exists iff `e.s_lno < tlno`, the post part exists
iff `same < e.s_lno + e.num_lines`, and the middle's suspect is set to
`parent` only when the middle has at least one line. -/
def split_overlap (e : BlameEntry) (tlno plno same : Int) (parent : Origin) :
    SplitPart × SplitPart × SplitPart :=
  let z : SplitPart := ⟨none, 0, 0, 0⟩
  let pre :=
    if e.s_lno < tlno then
      ({ suspect := some e.suspect, lno := e.lno, s_lno := e.s_lno,
         num_lines := tlno - e.s_lno : SplitPart },
       e.lno + tlno - e.s_lno, plno)
    else
      (z, e.lno, plno + (e.s_lno - tlno))
  let post :=
    if same < e.s_lno + e.num_lines then
      ({ suspect := some e.suspect, lno := e.lno + (same - e.s_lno),
         s_lno := e.s_lno + (same - e.s_lno),
         num_lines := e.s_lno + e.num_lines - same : SplitPart },
       e.lno + (same - e.s_lno))
    else
      (z, e.lno + e.num_lines)
  let s1lno := pre.2.1
  let s1slno := pre.2.2
  let chunk_end_lno := post.2
  let n1 := chunk_end_lno - s1lno
  let mid : SplitPart :=
    if n1 < 1 then ⟨none, s1lno, s1slno, n1⟩
    else ⟨some parent, s1lno, s1slno, n1⟩
  (pre.1, mid, post.1)

/-- `dup_entry`: overwrite the entry at position `i` with the contents
of split slot `p`, keeping its position in the sequence and resetting
the score cache (the C function preserves `prev`/`next` and zeroes
`score`). -/
def dup_entry (l : List BlameEntry) (i : Nat) (p : SplitPart) : List BlameEntry :=
  l.set i (partEntry p)

/-- `split_blame`: replace the entry at position `i` by the split parts
whose suspect is set.  The entry itself is overwritten in place
(`dup_entry`) and the remaining parts are inserted with
`add_blame_entry`, in the same order as the source (post part first,
then middle, in the two-sided case). -/
def split_blame (l : List BlameEntry) (i : Nat)
    (s : SplitPart × SplitPart × SplitPart) : List BlameEntry :=
  let s0 := s.1
  let s1 := s.2.1
  let s2 := s.2.2
  if s0.suspect.isSome && s2.suspect.isSome then
    add_blame_entry (add_blame_entry (dup_entry l i s0) (partEntry s2))
      (partEntry s1)
  else if s0.suspect.isNone && s2.suspect.isNone then
    dup_entry l i s1
  else if s0.suspect.isSome then
    add_blame_entry (dup_entry l i s0) (partEntry s1)
  else
    add_blame_entry (dup_entry l i s1) (partEntry s2)

/-- `blame_overlap`: compute the split of the entry at position `i` and
apply it unless the middle came back without a suspect (fewer than one
line). -/
def blame_overlap (l : List BlameEntry) (i : Nat) (tlno plno same : Int)
    (parent : Origin) : List BlameEntry :=
  match l.get? i with
  | none => l
  | some e =>
    let s := split_overlap e tlno plno same parent
    if s.2.1.suspect.isNone then l else split_blame l i s

/-- Loop body of `blame_chunk` for the entry at position `i`: skip
guilty entries, entries accusing a different origin, entries entirely at
or above `same`, and entries entirely below `tlno`; otherwise split. -/
def blame_chunk_entry (l : List BlameEntry) (i : Nat) (tlno plno same : Int)
    (target parent : Origin) : List BlameEntry :=
  match l.get? i with
  | none => l
  | some e =>
    if e.guilty || cmp_suspect e.suspect target then l
    else if same ≤ e.s_lno then l
    else if tlno < e.s_lno + e.num_lines then
      blame_overlap l i tlno plno same parent
    else l

/-- Well-formedness of the partition sequence over the requested line
range `[a, b)`: the entries tile the range in order without gap or
overlap (`e.lno + e.num_lines = e'.lno` for consecutive entries, first
`lno = a`, last tail `= b`), every entry has at least one line and a
non-negative suspect line.  This is the conjunction of invariants
(1)-(5) of the specification, with the doubly-linked-pointer condition
inherent in the list model. -/
def covers (a b : Int) : List BlameEntry → Bool
  | [] => a == b
  | e :: rest =>
    e.lno == a && decide (1 ≤ e.num_lines) && decide (0 ≤ e.s_lno)
      && covers (a + e.num_lines) b rest

/-- Lookup table from line numbers to byte offsets in the final buffer:
the `final_buf`/`lineno` fields of `struct scoreboard` that `nth_line`
and `ent_score` consume. -/
structure Scoreboard where
  final_buf : List Char
  lineno : List Nat
deriving Repr, Inhabited

/-- Byte offset of line `lno` (`nth_line` returns
`final_buf + lineno[lno]`; we return the offset). -/
def nth_line_off (sb : Scoreboard) (lno : Int) : Nat :=
  sb.lineno.getD lno.toNat 0

/-- ASCII `isalnum`, as used on the bytes of the final buffer. -/
def isalnumB (c : Char) : Bool :=
  ('0' ≤ c && c ≤ '9') || ('a' ≤ c && c ≤ 'z') || ('A' ≤ c && c ≤ 'Z')

/-- `ent_score`: a cached nonzero score is returned as is; otherwise one
plus the number of alphanumeric bytes between the start of line `lno`
and the start of line `lno + num_lines`.  (The C function also writes
the computed value back into the cache; the returned value is the
same.) -/
def ent_score (sb : Scoreboard) (e : BlameEntry) : Nat :=
  if e.score ≠ 0 then e.score
  else
    let cpo := nth_line_off sb e.lno
    let epo := nth_line_off sb (e.lno + e.num_lines)
    1 + (((sb.final_buf.drop cpo).take (epo - cpo)).filter isalnumB).length

/-- Per-entry decision of `find_move_in_parent`: the retained split is
applied only when its middle has a suspect and scores strictly above
`blame_move_score`. -/
def move_split_apply (sb : Scoreboard) (blame_move_score : Nat)
    (l : List BlameEntry) (i : Nat)
    (split : SplitPart × SplitPart × SplitPart) : List BlameEntry :=
  if split.2.1.suspect.isSome
      && decide (blame_move_score < ent_score sb (partEntry split.2.1)) then
    split_blame l i split
  else l

/-- Per-entry decision of `find_copy_in_parent`: the best split across
all candidate blobs is applied only when its middle has a suspect and
scores strictly above `blame_copy_score`. -/
def copy_split_apply (sb : Scoreboard) (blame_copy_score : Nat)
    (l : List BlameEntry) (i : Nat)
    (split : SplitPart × SplitPart × SplitPart) : List BlameEntry :=
  if split.2.1.suspect.isSome
      && decide (blame_copy_score < ent_score sb (partEntry split.2.1)) then
    split_blame l i split
  else l

/-- `MAXPARENT`. -/
def MAXPARENT : Nat := 16

/-- Parent-origin resolution inside the first loop of `pass_blame`:
try `find_origin` at the target's path, then `find_rename`.  The object
store and the rename-detecting tree diff are external collaborators and
enter as the function parameters `fo` (commit, path to origin) and `fr`
(commit, target origin to origin). -/
def resolve_parent (fo : Nat → Nat → Option Origin)
    (fr : Nat → Origin → Option Origin) (p : Nat) (origin : Origin) :
    Option Origin :=
  match fo p origin.path with
  | some po => some po
  | none => fr p origin

/-- First loop of `pass_blame` over (up to `MAXPARENT`) parents:
either it short-circuits on a parent whose blob digest equals the
target's (rewriting, by pointer identity, every entry accusing the
target and returning at once: `Sum.inl`), or it yields the array of
resolved parent origins for the later phases (`Sum.inr`; unresolved
slots are `none`). `parseOk` models `parse_commit` succeeding. -/
def pass_blame_scan (parseOk : Nat → Bool) (fo : Nat → Nat → Option Origin)
    (fr : Nat → Origin → Option Origin) (origin : Origin)
    (l : List BlameEntry) :
    List Nat → Sum (List BlameEntry) (List (Option Origin))
  | [] => Sum.inr []
  | p :: ps =>
    if !parseOk p then
      match pass_blame_scan parseOk fo fr origin l ps with
      | Sum.inl x => Sum.inl x
      | Sum.inr v => Sum.inr (none :: v)
    else
      match resolve_parent fo fr p origin with
      | none =>
        match pass_blame_scan parseOk fo fr origin l ps with
        | Sum.inl x => Sum.inl x
        | Sum.inr v => Sum.inr (none :: v)
      | some po =>
        if po.blob_sha1 == origin.blob_sha1 then
          Sum.inl (l.map fun e =>
            if e.suspect.oid == origin.oid then { e with suspect := po } else e)
        else
          match pass_blame_scan parseOk fo fr origin l ps with
          | Sum.inl x => Sum.inl x
          | Sum.inr v => Sum.inr (some po :: v)

/-- `pass_blame`: run the parent-resolution loop; on a short circuit
return its result immediately, otherwise hand the resolved parent
origins to the remaining phases (`pass_blame_to_parent` for each parent,
then the optional move and copy passes), abstracted here as the
function parameter `rest`. -/
def pass_blame (parseOk : Nat → Bool) (fo : Nat → Nat → Option Origin)
    (fr : Nat → Origin → Option Origin)
    (rest : List (Option Origin) → List BlameEntry → List BlameEntry)
    (origin : Origin) (parents : List Nat) (l : List BlameEntry) :
    List BlameEntry :=
  match pass_blame_scan parseOk fo fr origin l (parents.take MAXPARENT) with
  | Sum.inl l2 => l2
  | Sum.inr pos => rest pos l

/-- Suspect of the first entry not yet guilty (the pick at the top of
the `assign_blame` loop); `none` when every entry is guilty. -/
def find_first_unresolved : List BlameEntry → Option Origin
  | [] => none
  | e :: rest => if !e.guilty then some e.suspect else find_first_unresolved rest

/-- Take responsibility for the remaining entries: mark every entry
whose suspect compares equal to `suspect` as guilty. -/
def mark_guilty (suspect : Origin) (l : List BlameEntry) : List BlameEntry :=
  l.map fun e =>
    if !cmp_suspect e.suspect suspect then { e with guilty := true } else e

/-- `assign_blame`: the driver loop.  `pb suspect l` stands for the
conditional `pass_blame` call (for an uninteresting or too old commit it
behaves as the identity).  The C loop is `while (1)`; the model takes an
explicit iteration budget and the termination theorem below shows that
a budget computable from the initial state always suffices, so the
unbounded loop terminates. -/
def assign_blame (pb : Origin → List BlameEntry → List BlameEntry) :
    Nat → List BlameEntry → Option (List BlameEntry)
  | 0, _ => none
  | fuel+1, l =>
    match find_first_unresolved l with
    | none => some l
    | some suspect =>
      assign_blame pb fuel (coalesce (mark_guilty suspect (pb suspect l)))

/-- Termination measure for the driver: total weighted mass of the
unresolved entries, each line weighted by one plus the rank of its
suspect's commit (`rank` is any function decreasing from child to
parent; it exists because the commit graph is a finite DAG). -/
def phi (rank : Nat → Nat) (l : List BlameEntry) : Nat :=
  (l.map fun e =>
    if e.guilty then 0 else (rank e.suspect.commit + 1) * e.num_lines.toNat).sum

/-- Some entry is still unresolved and accuses `suspect`. -/
def has_unresolved (suspect : Origin) (l : List BlameEntry) : Bool :=
  l.any fun e => !e.guilty && !cmp_suspect e.suspect suspect

/-- What one (possibly skipped) `pass_blame` call guarantees, as used by
the termination argument: it never increases the measure; it can remove
the picked suspect's unresolved entries only by reassigning their lines
to strictly lower-ranked parent origins (so the measure strictly drops
in that case); it never marks entries guilty nor produces empty
entries.  The identity function satisfies this, so the model also
covers the commits for which the driver skips `pass_blame`. -/
def pass_blame_ok (rank : Nat → Nat)
    (pb : Origin → List BlameEntry → List BlameEntry) : Prop :=
  ∀ p l, phi rank (pb p l) ≤ phi rank l ∧
    (has_unresolved p l = true →
      has_unresolved p (pb p l) = true ∨ phi rank (pb p l) < phi rank l) ∧
    ((∀ e ∈ l, 1 ≤ e.num_lines) → ∀ e ∈ pb p l, 1 ≤ e.num_lines)

/-- One divergence record of a unified diff: `struct chunk`. -/
structure Chunk where
  same : Int
  p_next : Int
  t_next : Int
deriving DecidableEq, Repr, Inhabited

/-- Classification of one line of unified-diff text as `process_u_diff`
sees it: a hunk header that `parse_hunk_header` accepts (with its four
1-based numbers), a hunk header it rejects, a context line (first byte
a blank), or any other line. -/
inductive DiffLine where
  | hunk (off1 len1 off2 len2 : Nat)
  | badHunk
  | ctx
  | other
deriving DecidableEq, Repr

/-- `struct blame_diff_state`: the chunks accumulated so far plus the
two context counters. -/
structure BlameDiffState where
  chunks : List Chunk
  hunk_post_context : Nat
  hunk_in_pre_context : Bool
deriving DecidableEq, Repr, Inhabited

/-- Increment the `same` field of the last chunk
(`state->ret->chunks[num - 1].same++`; only reached with at least one
chunk present). -/
def bump_same_last : List Chunk → List Chunk
  | [] => []
  | [c] => [{ c with same := c.same + 1 }]
  | c :: rest => c :: bump_same_last rest

/-- Subtract `k` from the `p_next` and `t_next` fields of the last
chunk (`chunk->p_next -= ...; chunk->t_next -= ...`). -/
def dec_last (k : Nat) : List Chunk → List Chunk
  | [] => []
  | [c] => [{ c with p_next := c.p_next - (k : Int), t_next := c.t_next - (k : Int) }]
  | c :: rest => c :: dec_last k rest

/-- `process_u_diff`, one line at a time. -/
def process_u_diff (st : BlameDiffState) (line : DiffLine) : BlameDiffState :=
  match line with
  | .ctx =>
    if st.hunk_in_pre_context then { st with chunks := bump_same_last st.chunks }
    else { st with hunk_in_pre_context := false,
                   hunk_post_context := st.hunk_post_context + 1 }
  | .other =>
    { st with hunk_in_pre_context := false, hunk_post_context := 0 }
  | .badHunk =>
    { st with chunks :=
        if st.chunks ≠ [] ∧ st.hunk_post_context ≠ 0 then
          dec_last st.hunk_post_context st.chunks
        else st.chunks }
  | .hunk o1 l1 o2 l2 =>
    let cs :=
      if st.chunks ≠ [] ∧ st.hunk_post_context ≠ 0 then
        dec_last st.hunk_post_context st.chunks
      else st.chunks
    let off1 : Int := (o1 : Int) - 1
    let off2 : Int := (o2 : Int) - 1
    let same : Int := if l2 ≠ 0 then off2 else off2 + 1
    let c : Chunk :=
      { same := same,
        p_next := off1 + (if l1 ≠ 0 then (l1 : Int) else 1),
        t_next := same + (l2 : Int) }
    { chunks := cs ++ [c], hunk_post_context := 0, hunk_in_pre_context := true }

/-- `compare_buffer`: run the emitter over the diff lines starting from
the zeroed state, then apply the trailing-context correction to the
final chunk. -/
def compare_buffer (lines : List DiffLine) : List Chunk :=
  let st := lines.foldl process_u_diff ⟨[], 0, false⟩
  if st.chunks ≠ [] then dec_last st.hunk_post_context st.chunks else st.chunks

/-- The `-L n,m` swap at option-parsing time: when both bounds are
nonzero and in the wrong order they are exchanged. -/
def parse_L_swap (bottom top : Int) : Int × Int :=
  if bottom ≠ 0 ∧ top ≠ 0 ∧ top < bottom then (top, bottom) else (bottom, top)

/-- The range setup in `cmd_pickaxe` after the file has been read
(`lno` is the file's line count): clamp the bounds, make `bottom`
0-based, die (`none`) when the file has fewer than `top` lines, and
return the 0-based first line and line count of the initial entry. -/
def setup_blame_range (bottom top lno : Int) : Option (Int × Int) :=
  let b0 := if bottom < 1 then 1 else bottom
  let t0 := if top < 1 then lno else top
  let b1 := b0 - 1
  if lno < t0 then none else some (b1, t0 - b1)

/-- The single entry `cmd_pickaxe` seeds the scoreboard with. -/
def initial_entry (o : Origin) (b n : Int) : BlameEntry :=
  { lno := b, num_lines := n, suspect := o, guilty := false, s_lno := b,
    score := 0 }

/-- Initial scoreboard entry for `-L n,m` on a file of `lno` lines:
`parse_L_swap` followed by `setup_blame_range`; `none` models the fatal
exit. -/
def mk_initial (o : Origin) (n m lno : Int) : Option BlameEntry :=
  let bt := parse_L_swap n m
  match setup_blame_range bt.1 bt.2 lno with
  | none => none
  | some (b, cnt) => some (initial_entry o b cnt)

/-- Option bits of `cmd_pickaxe`. -/
def PICKAXE_BLAME_MOVE : Nat := 1

/-- Copy detection requested (`-C`). -/
def PICKAXE_BLAME_COPY : Nat := 2

/-- Copy-harder requested (`-C -C`). -/
def PICKAXE_BLAME_COPY_HARDER : Nat := 4

/-- `DIFF_DETECT_COPY` of the tree differ. -/
def DIFF_DETECT_COPY : Nat := 2

/-- The tree-diff options `find_copy_in_parent` cares about. -/
structure DiffOpts where
  detect_rename : Nat
  find_copies_harder : Bool
deriving DecidableEq, Repr

/-- How `find_copy_in_parent` configures the parent-to-target tree
diff: copy detection across all files is requested only when the
copy-harder bit is set AND the target's path is new in this parent
(no parent origin was resolved, or it sits at a different path). -/
def copy_in_parent_diff_opts (opt : Nat) (target : Origin)
    (porigin : Option Origin) : DiffOpts :=
  let pathNew : Bool :=
    match porigin with
    | none => true
    | some po => target.path != po.path
  if (opt &&& PICKAXE_BLAME_COPY_HARDER) != 0 && pathNew then
    { detect_rename := DIFF_DETECT_COPY, find_copies_harder := true }
  else
    { detect_rename := 0, find_copies_harder := false }

/-- Loop of `lineno_width` (`for (width = 1, i = 10; i <= lines + 1;
width++) i *= 10;`), with an explicit iteration budget (the budget
`lines + 2` used below always suffices because `i` grows by a factor of
ten per step). -/
def lineno_width_go : Nat → Nat → Nat → Nat → Nat
  | 0, _, _, width => width
  | fuel+1, lines, i, width =>
    if i ≤ lines + 1 then lineno_width_go fuel lines (i * 10) (width + 1)
    else width

/-- `lineno_width`. -/
def lineno_width (lines : Nat) : Nat :=
  lineno_width_go (lines + 2) lines 10 1

/-- The three decimal widths computed at the end of `find_alignment`
from the maxima gathered over all entries: source line-number width,
destination line-number width, score width. -/
def find_alignment_widths (longest_src_lines longest_dst_lines
    largest_score : Nat) : Nat × Nat × Nat :=
  (lineno_width longest_src_lines, lineno_width longest_dst_lines,
   lineno_width largest_score)

/-- C `ULONG_MAX` on the (LP64) reference platform. -/
def ULONG_MAX : Nat := 2 ^ 64 - 1

/-- C `isspace` (ASCII). -/
def isSpaceC (c : Char) : Bool :=
  c == ' ' || c == '\t' || c == '\n' || c == Char.ofNat 11 || c == Char.ofNat 12
    || c == '\r'

/-- ASCII decimal digit. -/
def isDigitC (c : Char) : Bool :=
  '0' ≤ c && c ≤ '9'

/-- Numeric value of a digit string. -/
def natOfDigits (ds : List Char) : Nat :=
  ds.foldl (fun a c => a * 10 + (c.toNat - '0'.toNat)) 0

/-- `strtoul(arg, &end, 10)` per C99 on an LP64 platform: skip
whitespace, accept one optional sign, consume decimal digits; with no
digits the end pointer is the input and the value 0; otherwise the
value saturates at `ULONG_MAX` and a minus sign negates it in unsigned
long arithmetic.  Returns the value and the suffix at the end
pointer. -/
def strtoul10 (s : List Char) : Nat × List Char :=
  let r1 := s.dropWhile isSpaceC
  let signAndRest : Bool × List Char :=
    match r1 with
    | '-' :: r => (true, r)
    | '+' :: r => (false, r)
    | r => (false, r)
  let ds := signAndRest.2.takeWhile isDigitC
  let rest := signAndRest.2.drop ds.length
  if ds.isEmpty then (0, s)
  else
    let v0 := natOfDigits ds
    let v1 := if ULONG_MAX < v0 then ULONG_MAX else v0
    let v2 := if signAndRest.1 then (2 ^ 64 - v1 % 2 ^ 64) % 2 ^ 64 else v1
    (v2, rest)

/-- `parse_score`: zero when anything follows the parsed prefix,
otherwise the parsed unsigned long truncated to `unsigned` (32 bits on
the reference platform). -/
def parse_score (s : List Char) : Nat :=
  let p := strtoul10 s
  if p.2 ≠ [] then 0 else p.1 % 2 ^ 32

/-- `BLAME_DEFAULT_MOVE_SCORE`. -/
def BLAME_DEFAULT_MOVE_SCORE : Nat := 20

/-- `BLAME_DEFAULT_COPY_SCORE`. -/
def BLAME_DEFAULT_COPY_SCORE : Nat := 40

/-- The move threshold resulting from `-M<arg>`: `blame_move_score =
parse_score(arg)` at option parsing, then `if (!blame_move_score)
blame_move_score = BLAME_DEFAULT_MOVE_SCORE;`. -/
def move_score_of (arg : List Char) : Nat :=
  let s := parse_score arg
  if s = 0 then BLAME_DEFAULT_MOVE_SCORE else s

/-- The copy threshold resulting from `-C<arg>`, defaulted likewise. -/
def copy_score_of (arg : List Char) : Nat :=
  let s := parse_score arg
  if s = 0 then BLAME_DEFAULT_COPY_SCORE else s

/-- Spec-side predicate, from the claim's words only: the score suffix
is a well-formed non-negative decimal number (at least one digit,
nothing but digits). -/
def specNonNegDecimal (s : List Char) : Bool :=
  !s.isEmpty && s.all isDigitC


theorem covers_nil {a b : Int} : covers a b ([] : List BlameEntry) = true ↔ a = b := by
  simp [covers]

theorem covers_cons {a b : Int} {e : BlameEntry} {t : List BlameEntry} :
    covers a b (e :: t) = true ↔
      e.lno = a ∧ 1 ≤ e.num_lines ∧ 0 ≤ e.s_lno ∧
        covers (a + e.num_lines) b t = true := by
  simp [covers, Bool.and_eq_true, and_assoc]

theorem covers_append {l1 l2 : List BlameEntry} {a b : Int} :
    covers a b (l1 ++ l2) = true ↔
      ∃ m, covers a m l1 = true ∧ covers m b l2 = true := by
  induction l1 generalizing a with
  | nil => simp [covers_nil]
  | cons e t ih =>
    simp only [List.cons_append, covers_cons, ih]
    constructor
    · rintro ⟨h1, h2, h3, m, hm1, hm2⟩
      exact ⟨m, ⟨h1, h2, h3, hm1⟩, hm2⟩
    · rintro ⟨m, ⟨h1, h2, h3, hm1⟩, hm2⟩
      exact ⟨h1, h2, h3, m, hm1, hm2⟩

theorem covers_le {a b : Int} {l : List BlameEntry} (h : covers a b l = true) :
    a ≤ b := by
  induction l generalizing a with
  | nil => rw [covers_nil] at h; omega
  | cons e t ih =>
    rw [covers_cons] at h
    have := ih h.2.2.2
    omega

theorem covers_mem_lno {a b : Int} {l : List BlameEntry}
    (h : covers a b l = true) : ∀ y ∈ l, a ≤ y.lno ∧ y.lno < b := by
  induction l generalizing a with
  | nil => simp
  | cons e t ih =>
    rw [covers_cons] at h
    obtain ⟨h1, h2, _, h4⟩ := h
    intro y hy
    rcases List.mem_cons.mp hy with rfl | hy
    · exact ⟨le_of_eq h1.symm, by have := covers_le h4; omega⟩
    · have := ih h4 y hy; omega

theorem covers_head_lno {a b : Int} {l : List BlameEntry} {z : BlameEntry}
    (h : covers a b l = true) (hz : l.head? = some z) : z.lno = a := by
  cases l with
  | nil => simp at hz
  | cons e t =>
    simp only [List.head?_cons, Option.some.injEq] at hz
    subst hz
    exact (covers_cons.mp h).1

theorem add_blame_entry_append {x : BlameEntry} (l1 l2 : List BlameEntry)
    (h1 : ∀ y ∈ l1, y.lno < x.lno)
    (h2 : ∀ z ∈ l2.head?, x.lno ≤ z.lno) :
    add_blame_entry (l1 ++ l2) x = l1 ++ x :: l2 := by
  induction l1 with
  | nil =>
    cases l2 with
    | nil => rfl
    | cons z t =>
      have hz : ¬ (z.lno < x.lno) := not_lt.mpr (h2 z (by simp))
      simp [add_blame_entry, hz]
  | cons y t ih =>
    have hy : y.lno < x.lno := h1 y (by simp)
    simp only [List.cons_append, add_blame_entry, if_pos hy, List.cons.injEq,
      true_and]
    exact ih (fun y' hy' => h1 y' (by simp [hy']))

theorem covers_map {a b : Int} {l : List BlameEntry}
    (f : BlameEntry → BlameEntry)
    (hf : ∀ e, (f e).lno = e.lno ∧ (f e).num_lines = e.num_lines ∧
      (f e).s_lno = e.s_lno)
    (h : covers a b l = true) : covers a b (l.map f) = true := by
  induction l generalizing a with
  | nil => simpa [covers_nil] using h
  | cons e t ih =>
    rw [covers_cons] at h
    obtain ⟨hf1, hf2, hf3⟩ := hf e
    rw [List.map_cons, covers_cons, hf1, hf2, hf3]
    exact ⟨h.1, h.2.1, h.2.2.1, ih h.2.2.2⟩

theorem covers_coalesce {l : List BlameEntry} :
    ∀ {a b : Int}, covers a b l = true → covers a b (coalesce l) = true := by
  induction l using coalesce.induct with
  | case1 => intro a b h; simpa [coalesce] using h
  | case2 e => intro a b h; simpa [coalesce] using h
  | case3 e f rest hcond ih =>
    intro a b h
    rw [coalesce, if_pos hcond]
    rw [covers_cons] at h
    obtain ⟨h1, h2, h3, h4⟩ := h
    rw [covers_cons] at h4
    obtain ⟨h5, h6, h7, h8⟩ := h4
    apply ih
    rw [covers_cons]
    refine ⟨h1, show (1:Int) ≤ e.num_lines + f.num_lines by omega, h3, ?_⟩
    show covers (a + (e.num_lines + f.num_lines)) b rest = true
    rw [← add_assoc]
    exact h8
  | case4 e f rest hcond ih =>
    intro a b h
    rw [coalesce, if_neg hcond]
    rw [covers_cons] at h ⊢
    exact ⟨h.1, h.2.1, h.2.2.1, ih h.2.2.2⟩

theorem split_blame_eq_three {l : List BlameEntry} {i : Nat}
    {s0 s1 s2 : SplitPart} {o0 o2 : Origin}
    (h0 : s0.suspect = some o0) (h2 : s2.suspect = some o2) :
    split_blame l i (s0, s1, s2) =
      add_blame_entry (add_blame_entry (dup_entry l i s0) (partEntry s2))
        (partEntry s1) := by
  simp [split_blame, h0, h2]

theorem split_blame_eq_mid {l : List BlameEntry} {i : Nat}
    {s0 s1 s2 : SplitPart}
    (h0 : s0.suspect = none) (h2 : s2.suspect = none) :
    split_blame l i (s0, s1, s2) = dup_entry l i s1 := by
  simp [split_blame, h0, h2]

theorem split_blame_eq_pre_mid {l : List BlameEntry} {i : Nat}
    {s0 s1 s2 : SplitPart} {o0 : Origin}
    (h0 : s0.suspect = some o0) (h2 : s2.suspect = none) :
    split_blame l i (s0, s1, s2) =
      add_blame_entry (dup_entry l i s0) (partEntry s1) := by
  simp [split_blame, h0, h2]

theorem split_blame_eq_mid_post {l : List BlameEntry} {i : Nat}
    {s0 s1 s2 : SplitPart} {o2 : Origin}
    (h0 : s0.suspect = none) (h2 : s2.suspect = some o2) :
    split_blame l i (s0, s1, s2) =
      add_blame_entry (dup_entry l i s1) (partEntry s2) := by
  simp [split_blame, h0, h2]

theorem covers_blame_overlap {a b : Int} {l : List BlameEntry} (i : Nat)
    (tlno plno same : Int) (parent : Origin)
    (hpl : 0 ≤ plno) (hsm : 0 ≤ same)
    (h : covers a b l = true) :
    covers a b (blame_overlap l i tlno plno same parent) = true := by
  unfold blame_overlap
  cases hg : l.get? i with
  | none => exact h
  | some e =>
    have hi : i < l.length := (List.get?_eq_some.mp hg).1
    have he : l[i] = e := by
      have h2 := (List.get?_eq_some.mp hg).2
      simpa using h2
    have hdec : l = l.take i ++ e :: l.drop (i + 1) := by
      conv_lhs => rw [← List.take_append_drop i l]
      rw [List.drop_eq_getElem_cons hi, he]
    have hsetEq : ∀ p : SplitPart,
        dup_entry l i p = l.take i ++ partEntry p :: l.drop (i + 1) :=
      fun p => List.set_eq_take_cons_drop _ hi
    rw [hdec] at h
    rw [covers_append] at h
    obtain ⟨m, hm1, hm2⟩ := h
    rw [covers_cons] at hm2
    obtain ⟨helno, henum, heslno, hm3⟩ := hm2
    have htake : ∀ y ∈ l.take i, y.lno < m :=
      fun y hy => (covers_mem_lno hm1 y hy).2
    have hhead : ∀ z ∈ (l.drop (i + 1)).head?, z.lno = m + e.num_lines :=
      fun z hz => covers_head_lno hm3 hz
    have hback : covers a b (l.take i ++ e :: l.drop (i + 1)) = true :=
      covers_append.mpr ⟨m, hm1, covers_cons.mpr ⟨helno, henum, heslno, hm3⟩⟩
    simp only [split_overlap]
    by_cases hpre : e.s_lno < tlno <;> by_cases hpost : same < e.s_lno + e.num_lines
    · -- pre and post parts both present
      rw [if_pos hpre, if_pos hpost]
      dsimp only
      by_cases hmid : e.lno + (same - e.s_lno) - (e.lno + tlno - e.s_lno) < 1
      · rw [if_pos hmid]
        split_ifs with hnone
        · rw [hdec]; exact hback
        · simp at hnone
      · rw [if_neg hmid]
        split_ifs with hnone
        · simp at hnone
        · rw [split_blame_eq_three rfl rfl, hsetEq]
          rw [show ∀ (x : BlameEntry) (t : List BlameEntry),
                l.take i ++ x :: t = (l.take i ++ [x]) ++ t from
              fun x t => by simp]
          have hc1 : ∀ y ∈ l.take i ++
              [partEntry ⟨some e.suspect, e.lno, e.s_lno, tlno - e.s_lno⟩],
              y.lno < (partEntry ⟨some e.suspect, e.lno + (same - e.s_lno),
                e.s_lno + (same - e.s_lno),
                e.s_lno + e.num_lines - same⟩).lno := by
            intro y hy
            simp only [partEntry]
            rcases List.mem_append.mp hy with hy | hy
            · have := htake y hy; omega
            · rw [List.mem_singleton] at hy; subst hy
              simp only [partEntry]; omega
          have hc2 : ∀ z ∈ (l.drop (i + 1)).head?,
              (partEntry ⟨some e.suspect, e.lno + (same - e.s_lno),
                e.s_lno + (same - e.s_lno),
                e.s_lno + e.num_lines - same⟩).lno ≤ z.lno := by
            intro z hz
            have := hhead z hz
            simp only [partEntry]; omega
          rw [add_blame_entry_append _ _ hc1 hc2]
          have hc3 : ∀ y ∈ l.take i ++
              [partEntry ⟨some e.suspect, e.lno, e.s_lno, tlno - e.s_lno⟩],
              y.lno < (partEntry ⟨some parent, e.lno + tlno - e.s_lno, plno,
                e.lno + (same - e.s_lno) - (e.lno + tlno - e.s_lno)⟩).lno := by
            intro y hy
            simp only [partEntry]
            rcases List.mem_append.mp hy with hy | hy
            · have := htake y hy; omega
            · rw [List.mem_singleton] at hy; subst hy
              simp only [partEntry]; omega
          have hc4 : ∀ z ∈ ((partEntry ⟨some e.suspect, e.lno + (same - e.s_lno),
                e.s_lno + (same - e.s_lno), e.s_lno + e.num_lines - same⟩) ::
                l.drop (i + 1)).head?,
              (partEntry ⟨some parent, e.lno + tlno - e.s_lno, plno,
                e.lno + (same - e.s_lno) - (e.lno + tlno - e.s_lno)⟩).lno
                ≤ z.lno := by
            intro z hz
            simp only [List.head?_cons, Option.mem_def, Option.some.injEq] at hz
            subst hz
            simp only [partEntry]; omega
          rw [add_blame_entry_append _ _ hc3 hc4]
          rw [List.append_assoc]
          simp only [List.singleton_append]
          rw [covers_append]
          refine ⟨m, hm1, ?_⟩
          refine covers_cons.mpr ⟨?_, ?_, ?_, covers_cons.mpr ⟨?_, ?_, ?_,
            covers_cons.mpr ⟨?_, ?_, ?_, ?_⟩⟩⟩
          · simp only [partEntry]; omega
          · simp only [partEntry]; omega
          · simp only [partEntry]; omega
          · simp only [partEntry]; omega
          · simp only [partEntry]; omega
          · simp only [partEntry]; omega
          · simp only [partEntry]; omega
          · simp only [partEntry]; omega
          · simp only [partEntry]; omega
          · have hstep : ∀ x : Int, x = m + e.num_lines →
                covers x b (l.drop (i + 1)) = true := fun x hx => hx ▸ hm3
            apply hstep
            simp only [partEntry]
            omega
    · -- pre part present, no post part
      rw [if_pos hpre, if_neg hpost]
      dsimp only
      by_cases hmid : e.lno + e.num_lines - (e.lno + tlno - e.s_lno) < 1
      · rw [if_pos hmid]
        split_ifs with hnone
        · rw [hdec]; exact hback
        · simp at hnone
      · rw [if_neg hmid]
        split_ifs with hnone
        · simp at hnone
        · rw [split_blame_eq_pre_mid rfl rfl, hsetEq]
          rw [show ∀ (x : BlameEntry) (t : List BlameEntry),
                l.take i ++ x :: t = (l.take i ++ [x]) ++ t from
              fun x t => by simp]
          have hc1 : ∀ y ∈ l.take i ++
              [partEntry ⟨some e.suspect, e.lno, e.s_lno, tlno - e.s_lno⟩],
              y.lno < (partEntry ⟨some parent, e.lno + tlno - e.s_lno, plno,
                e.lno + e.num_lines - (e.lno + tlno - e.s_lno)⟩).lno := by
            intro y hy
            simp only [partEntry]
            rcases List.mem_append.mp hy with hy | hy
            · have := htake y hy; omega
            · rw [List.mem_singleton] at hy; subst hy
              simp only [partEntry]; omega
          have hc2 : ∀ z ∈ (l.drop (i + 1)).head?,
              (partEntry ⟨some parent, e.lno + tlno - e.s_lno, plno,
                e.lno + e.num_lines - (e.lno + tlno - e.s_lno)⟩).lno
                ≤ z.lno := by
            intro z hz
            have := hhead z hz
            simp only [partEntry]; omega
          rw [add_blame_entry_append _ _ hc1 hc2]
          rw [List.append_assoc]
          simp only [List.singleton_append]
          rw [covers_append]
          refine ⟨m, hm1, ?_⟩
          refine covers_cons.mpr ⟨?_, ?_, ?_, covers_cons.mpr ⟨?_, ?_, ?_, ?_⟩⟩
          · simp only [partEntry]; omega
          · simp only [partEntry]; omega
          · simp only [partEntry]; omega
          · simp only [partEntry]; omega
          · simp only [partEntry]; omega
          · simp only [partEntry]; omega
          · have hstep : ∀ x : Int, x = m + e.num_lines →
                covers x b (l.drop (i + 1)) = true := fun x hx => hx ▸ hm3
            apply hstep
            simp only [partEntry]
            omega
    · -- no pre part, post part present
      rw [if_neg hpre, if_pos hpost]
      dsimp only
      by_cases hmid : e.lno + (same - e.s_lno) - e.lno < 1
      · rw [if_pos hmid]
        split_ifs with hnone
        · rw [hdec]; exact hback
        · simp at hnone
      · rw [if_neg hmid]
        split_ifs with hnone
        · simp at hnone
        · rw [split_blame_eq_mid_post rfl rfl, hsetEq]
          rw [show ∀ (x : BlameEntry) (t : List BlameEntry),
                l.take i ++ x :: t = (l.take i ++ [x]) ++ t from
              fun x t => by simp]
          have hc1 : ∀ y ∈ l.take i ++
              [partEntry ⟨some parent, e.lno, plno + (e.s_lno - tlno),
                e.lno + (same - e.s_lno) - e.lno⟩],
              y.lno < (partEntry ⟨some e.suspect, e.lno + (same - e.s_lno),
                e.s_lno + (same - e.s_lno),
                e.s_lno + e.num_lines - same⟩).lno := by
            intro y hy
            simp only [partEntry]
            rcases List.mem_append.mp hy with hy | hy
            · have := htake y hy; omega
            · rw [List.mem_singleton] at hy; subst hy
              simp only [partEntry]; omega
          have hc2 : ∀ z ∈ (l.drop (i + 1)).head?,
              (partEntry ⟨some e.suspect, e.lno + (same - e.s_lno),
                e.s_lno + (same - e.s_lno),
                e.s_lno + e.num_lines - same⟩).lno ≤ z.lno := by
            intro z hz
            have := hhead z hz
            simp only [partEntry]; omega
          rw [add_blame_entry_append _ _ hc1 hc2]
          rw [List.append_assoc]
          simp only [List.singleton_append]
          rw [covers_append]
          refine ⟨m, hm1, ?_⟩
          refine covers_cons.mpr ⟨?_, ?_, ?_, covers_cons.mpr ⟨?_, ?_, ?_, ?_⟩⟩
          · simp only [partEntry]; omega
          · simp only [partEntry]; omega
          · simp only [partEntry]; omega
          · simp only [partEntry]; omega
          · simp only [partEntry]; omega
          · simp only [partEntry]; omega
          · have hstep : ∀ x : Int, x = m + e.num_lines →
                covers x b (l.drop (i + 1)) = true := fun x hx => hx ▸ hm3
            apply hstep
            simp only [partEntry]
            omega
    · -- middle covers the whole entry
      rw [if_neg hpre, if_neg hpost]
      dsimp only
      by_cases hmid : e.lno + e.num_lines - e.lno < 1
      · rw [if_pos hmid]
        split_ifs with hnone
        · rw [hdec]; exact hback
        · simp at hnone
      · rw [if_neg hmid]
        split_ifs with hnone
        · simp at hnone
        · rw [split_blame_eq_mid rfl rfl, hsetEq]
          rw [covers_append]
          refine ⟨m, hm1, ?_⟩
          refine covers_cons.mpr ⟨?_, ?_, ?_, ?_⟩
          · simp only [partEntry]; omega
          · simp only [partEntry]; omega
          · simp only [partEntry]; omega
          · have hstep : ∀ x : Int, x = m + e.num_lines →
                covers x b (l.drop (i + 1)) = true := fun x hx => hx ▸ hm3
            apply hstep
            simp only [partEntry]
            omega

theorem covers_chain {a b : Int} {l : List BlameEntry} (h : covers a b l = true) :
    l.Chain' (fun x y => x.lno < y.lno) := by
  induction l generalizing a with
  | nil => simp
  | cons e t ih =>
    rw [covers_cons] at h
    obtain ⟨h1, h2, _, h4⟩ := h
    refine List.chain'_cons'.mpr ⟨?_, ih h4⟩
    intro y hy
    have := covers_head_lno h4 hy
    omega

/-- States of the partition sequence reachable by the blame engine over
the requested range `[rs, re)`: the initial single-entry setup of
`cmd_pickaxe`, the split applied by `blame_overlap` (this covers every
`split_blame` call site: the propagator's `blame_chunk` and, through the
per-entry best split, the move and copy passes; `plno` and `same` are
line numbers in the parent and the suspect and hence non-negative), the
guilty marking and the blob-equality suspect rewrite of the driver, and
`coalesce`. -/
inductive Reachable (rs re : Int) : List BlameEntry → Prop where
  | init (o : Origin) (hb : 0 ≤ rs) (ht : rs < re) :
      Reachable rs re [initial_entry o rs (re - rs)]
  | split (l : List BlameEntry) (i : Nat) (tlno plno same : Int)
      (parent : Origin) (hpl : 0 ≤ plno) (hsm : 0 ≤ same)
      (hl : Reachable rs re l) :
      Reachable rs re (blame_overlap l i tlno plno same parent)
  | coal (l : List BlameEntry) (hl : Reachable rs re l) :
      Reachable rs re (coalesce l)
  | mark (l : List BlameEntry) (s : Origin) (hl : Reachable rs re l) :
      Reachable rs re (mark_guilty s l)
  | reassign (l : List BlameEntry) (o po : Origin) (hl : Reachable rs re l) :
      Reachable rs re (l.map fun e =>
        if e.suspect.oid == o.oid then { e with suspect := po } else e)

theorem Reachable.blame_chunk_entry_step {rs re : Int} {l : List BlameEntry}
    (h : Reachable rs re l) (i : Nat) (tlno plno same : Int)
    (target parent : Origin) (hpl : 0 ≤ plno) (hsm : 0 ≤ same) :
    Reachable rs re (blame_chunk_entry l i tlno plno same target parent) := by
  unfold blame_chunk_entry
  cases hg : l.get? i with
  | none => exact h
  | some e =>
    dsimp only
    split_ifs with h1 h2 h3
    · exact h
    · exact h
    · exact Reachable.split l i tlno plno same parent hpl hsm h
    · exact h

theorem Reachable.move_split_step {rs re : Int} {l : List BlameEntry}
    (h : Reachable rs re l) (sb : Scoreboard) (th : Nat) (i : Nat)
    (e : BlameEntry) (tlno plno same : Int) (parent : Origin)
    (hg : l.get? i = some e) (hpl : 0 ≤ plno) (hsm : 0 ≤ same) :
    Reachable rs re
      (move_split_apply sb th l i (split_overlap e tlno plno same parent)) := by
  unfold move_split_apply
  split_ifs with hc
  · rw [Bool.and_eq_true] at hc
    obtain ⟨x, hx⟩ := Option.isSome_iff_exists.mp hc.1
    have h2 : (split_overlap e tlno plno same parent).2.1.suspect.isNone
        = false := by simp [hx]
    have heq : blame_overlap l i tlno plno same parent =
        split_blame l i (split_overlap e tlno plno same parent) := by
      unfold blame_overlap
      simp only [hg, h2, Bool.false_eq_true, if_false]
    rw [← heq]
    exact Reachable.split l i tlno plno same parent hpl hsm h
  · exact h

theorem Reachable.copy_split_step {rs re : Int} {l : List BlameEntry}
    (h : Reachable rs re l) (sb : Scoreboard) (th : Nat) (i : Nat)
    (e : BlameEntry) (tlno plno same : Int) (parent : Origin)
    (hg : l.get? i = some e) (hpl : 0 ≤ plno) (hsm : 0 ≤ same) :
    Reachable rs re
      (copy_split_apply sb th l i (split_overlap e tlno plno same parent)) :=
  h.move_split_step sb th i e tlno plno same parent hg hpl hsm

/-- C1: in every reachable state of the partition sequence (after the
initial single-entry setup and after every insert, `split_blame` or
`coalesce`, as well as after the driver's guilty marking and suspect
rewriting), the entries are ordered by `lno` strictly ascending (so the
doubly linked order, inherent in the list model, is consistent),
consecutive entries satisfy `e.lno + e.num_lines = e'.lno` with no gap
and no overlap, the sequence covers exactly the requested range
`[rs, re)`, and every entry has `0 ≤ s_lno` and `1 ≤ num_lines` (all of
which is the statement `covers rs re l`). -/
theorem partition_sequence_invariants {rs re : Int} {l : List BlameEntry}
    (h : Reachable rs re l) :
    covers rs re l = true ∧ l.Chain' (fun x y => x.lno < y.lno) := by
  have hc : covers rs re l = true := by
    induction h with
    | init o hb ht =>
      exact covers_cons.mpr ⟨rfl, show (1:Int) ≤ re - rs by omega, hb,
        covers_nil.mpr (show rs + (re - rs) = re by omega)⟩
    | split l i tlno plno same parent hpl hsm hl ih =>
      exact covers_blame_overlap i tlno plno same parent hpl hsm ih
    | coal l hl ih => exact covers_coalesce ih
    | mark l s hl ih =>
      exact covers_map _ (fun e => by split_ifs <;>
        exact ⟨rfl, rfl, rfl⟩) ih
    | reassign l o po hl ih =>
      exact covers_map _ (fun e => by split_ifs <;>
        exact ⟨rfl, rfl, rfl⟩) ih
  exact ⟨hc, covers_chain hc⟩

theorem partition_sequence_invariants_witness :
    covers 0 1 [initial_entry default 0 (1 - 0)] = true ∧
      List.Chain' (fun x y => x.lno < y.lno)
        [initial_entry default 0 (1 - 0)] :=
  partition_sequence_invariants
    (Reachable.init default (by decide) (by decide))

/-- C3: for an entry `e` whose suspect-line range `[e.s_lno, e.s_lno +
e.num_lines)` overlaps `[tlno, same)` (nonempty intersection, i.e.
`max e.s_lno tlno < min (e.s_lno + e.num_lines) same`), the three-way
split computed by `blame_chunk` via `split_overlap` reassigns the
middle `[max(e.s_lno, tlno), min(e.s_lno + e.num_lines, same))` to the
parent, with its `s_lno` in the parent equal to
`plno + (max(e.s_lno, tlno) - tlno)`; the pre and post regions (when
nonempty) stay on the current suspect; the three spans sum to `e`'s
span; and when the middle has zero lines the split is not applied
(`blame_overlap` leaves the sequence unchanged). -/
theorem blame_chunk_three_way_split (e : BlameEntry) (tlno plno same : Int)
    (parent : Origin) (l : List BlameEntry) (i : Nat)
    (hg : l.get? i = some e) :
    (max e.s_lno tlno < min (e.s_lno + e.num_lines) same →
      (split_overlap e tlno plno same parent).2.1.suspect = some parent ∧
      (split_overlap e tlno plno same parent).2.1.s_lno
        = plno + (max e.s_lno tlno - tlno) ∧
      (split_overlap e tlno plno same parent).2.1.num_lines
        = min (e.s_lno + e.num_lines) same - max e.s_lno tlno ∧
      (split_overlap e tlno plno same parent).2.1.lno
        = e.lno + (max e.s_lno tlno - e.s_lno) ∧
      (split_overlap e tlno plno same parent).1.suspect
        = (if e.s_lno < tlno then some e.suspect else none) ∧
      (split_overlap e tlno plno same parent).2.2.suspect
        = (if same < e.s_lno + e.num_lines then some e.suspect else none) ∧
      (split_overlap e tlno plno same parent).1.num_lines
          + (split_overlap e tlno plno same parent).2.1.num_lines
          + (split_overlap e tlno plno same parent).2.2.num_lines
        = e.num_lines) ∧
    (min (e.s_lno + e.num_lines) same ≤ max e.s_lno tlno →
      blame_overlap l i tlno plno same parent = l) := by
  constructor
  · intro hmid
    unfold split_overlap
    by_cases hpre : e.s_lno < tlno <;>
      by_cases hpost : same < e.s_lno + e.num_lines
    · simp only [if_pos hpre, if_pos hpost]
      rw [if_neg (by omega)]
      refine ⟨?_, ?_, ?_, ?_, ?_, ?_, ?_⟩ <;> simp [hpre, hpost] <;> omega
    · simp only [if_pos hpre, if_neg hpost]
      rw [if_neg (by omega)]
      refine ⟨?_, ?_, ?_, ?_, ?_, ?_, ?_⟩ <;> simp [hpre, hpost] <;> omega
    · simp only [if_neg hpre, if_pos hpost]
      rw [if_neg (by omega)]
      refine ⟨?_, ?_, ?_, ?_, ?_, ?_, ?_⟩ <;> simp [hpre, hpost] <;> omega
    · simp only [if_neg hpre, if_neg hpost]
      rw [if_neg (by omega)]
      refine ⟨?_, ?_, ?_, ?_, ?_, ?_, ?_⟩ <;> simp [hpre, hpost] <;> omega
  · intro hle
    unfold blame_overlap
    simp only [hg]
    unfold split_overlap
    by_cases hpre : e.s_lno < tlno <;>
      by_cases hpost : same < e.s_lno + e.num_lines
    · simp only [if_pos hpre, if_pos hpost]
      rw [if_pos (show e.lno + (same - e.s_lno) - (e.lno + tlno - e.s_lno) < 1
        by omega)]
      simp
    · simp only [if_pos hpre, if_neg hpost]
      rw [if_pos (show e.lno + e.num_lines - (e.lno + tlno - e.s_lno) < 1
        by omega)]
      simp
    · simp only [if_neg hpre, if_pos hpost]
      rw [if_pos (show e.lno + (same - e.s_lno) - e.lno < 1 by omega)]
      simp
    · simp only [if_neg hpre, if_neg hpost]
      rw [if_pos (show e.lno + e.num_lines - e.lno < 1 by omega)]
      simp

theorem blame_chunk_three_way_split_witness :
    (split_overlap ⟨0, 2, default, false, 0, 0⟩ 0 0 1 default).2.1.suspect
        = some default ∧
      (split_overlap ⟨0, 2, default, false, 0, 0⟩ 0 0 1 default).2.1.num_lines
        = 1 := by
  have h := (blame_chunk_three_way_split ⟨0, 2, default, false, 0, 0⟩ 0 0 1
    default [⟨0, 2, default, false, 0, 0⟩] 0 rfl).1 (by decide)
  exact ⟨h.1, by rw [h.2.2.1]; decide⟩

/-- C7: `-L n,m` with `1 ≤ n ≤ m` restricts blame to the 1-based
inclusive line range `n..m`: when a bound exceeds the file's line count
(`m > lno`, which with `n ≤ m` also covers an out-of-range `n`), the
command dies before blame runs (modelled as `none`); otherwise the
initial scoreboard entry covers exactly that range, 0-based first line
`n - 1`, `m - n + 1` lines, suspect lines starting at `n - 1`. -/
theorem line_range_option (o : Origin) (n m lno : Int)
    (h1 : 1 ≤ n) (h2 : n ≤ m) :
    (lno < m → mk_initial o n m lno = none) ∧
    (m ≤ lno → mk_initial o n m lno =
      some { lno := n - 1, num_lines := m - n + 1, suspect := o,
             guilty := false, s_lno := n - 1, score := 0 }) := by
  have hb : parse_L_swap n m = (n, m) := by
    unfold parse_L_swap
    rw [if_neg (by omega)]
  have hs1 : setup_blame_range n m lno =
      if lno < m then none else some (n - 1, m - (n - 1)) := by
    unfold setup_blame_range
    rw [if_neg (show ¬ n < 1 by omega), if_neg (show ¬ m < 1 by omega)]
  constructor
  · intro hlt
    unfold mk_initial
    rw [hb]
    dsimp only
    rw [hs1, if_pos hlt]
  · intro hge
    unfold mk_initial
    rw [hb]
    dsimp only
    rw [hs1, if_neg (not_lt.mpr hge)]
    dsimp only [initial_entry]
    rw [show m - (n - 1) = m - n + 1 from by omega]

theorem line_range_option_witness :
    (3 < 10 → mk_initial default 2 10 3 = none) ∧
      ((10 : Int) ≤ 3 → mk_initial default 2 10 3 =
        some { lno := 1, num_lines := 9, suspect := default,
               guilty := false, s_lno := 1, score := 0 }) := by
  simpa using line_range_option default 2 10 3 (by decide) (by decide)

/-- C8 counterexample: with the copy-harder bit set (`opt = 7`, i.e.
move, copy and copy-harder) but a parent origin resolved at the same
path as the target, `find_copy_in_parent` does NOT request copy
detection across all files: the tree-diff options stay at their
defaults, refuting the claim that every parent tree-diff requests
find-copies-harder whenever the option is enabled. -/
theorem copy_harder_counterexample :
    (7 &&& PICKAXE_BLAME_COPY_HARDER ≠ 0) ∧
      copy_in_parent_diff_opts 7 ⟨0, 0, 5, 0⟩ (some ⟨1, 1, 5, 1⟩)
        = { detect_rename := 0, find_copies_harder := false } := by
  constructor
  · decide
  · decide

/-- C8 (amended): with the copy-harder option enabled, the Copier's
tree-diff from a parent requests copy detection across all files
(`detect_rename = DIFF_DETECT_COPY` with `find_copies_harder`) if and
only if the target's path is new in that parent: no parent origin was
resolved, or the resolved parent origin sits at a different path than
the target. -/
theorem copy_harder_applies_iff (opt : Nat) (target : Origin)
    (porigin : Option Origin) :
    ((copy_in_parent_diff_opts opt target porigin).find_copies_harder = true ∧
      (copy_in_parent_diff_opts opt target porigin).detect_rename
        = DIFF_DETECT_COPY) ↔
      ((opt &&& PICKAXE_BLAME_COPY_HARDER ≠ 0) ∧
        ∀ po ∈ porigin, target.path ≠ po.path) := by
  cases porigin with
  | none =>
    simp only [copy_in_parent_diff_opts]
    split_ifs with hc
    · simp only [Bool.and_eq_true, bne_iff_ne] at hc
      simp [hc.1]
    · simp only [Bool.and_eq_true, bne_iff_ne, not_and] at hc
      simp at hc
      simp [hc]
  | some po =>
    simp only [copy_in_parent_diff_opts]
    split_ifs with hc
    · simp only [Bool.and_eq_true, bne_iff_ne] at hc
      simp [hc.1, hc.2]
    · simp only [Bool.and_eq_true, bne_iff_ne, not_and] at hc
      constructor
      · intro hh
        simp at hh
      · rintro ⟨hopt, hpath⟩
        exact absurd (hpath po rfl) (by simpa using hc hopt)

theorem lineno_width_go_spec :
    ∀ (f i w lines : Nat), 1 ≤ i → lines + 2 ≤ f + i →
      (i ≤ lines + 1 → ∃ k, lineno_width_go f lines i w = w + k + 1 ∧
        i * 10 ^ k ≤ lines + 1 ∧ lines + 1 < i * 10 ^ (k + 1)) ∧
      (lines + 1 < i → lineno_width_go f lines i w = w) := by
  intro f
  induction f with
  | zero =>
    intro i w lines h1 h2
    refine ⟨fun hle => absurd hle (by omega), fun _ => rfl⟩
  | succ f ih =>
    intro i w lines h1 h2
    constructor
    · intro hle
      rw [lineno_width_go, if_pos hle]
      have h10 : 1 ≤ i * 10 := by omega
      have hf : lines + 2 ≤ f + i * 10 := by omega
      by_cases hnext : i * 10 ≤ lines + 1
      · obtain ⟨k, hk1, hk2, hk3⟩ := (ih (i * 10) (w + 1) lines h10 hf).1 hnext
        refine ⟨k + 1, by omega, ?_, ?_⟩
        · calc i * 10 ^ (k + 1) = i * 10 * 10 ^ k := by ring
            _ ≤ lines + 1 := hk2
        · calc lines + 1 < i * 10 * 10 ^ (k + 1) := hk3
            _ = i * 10 ^ (k + 1 + 1) := by ring
      · have := (ih (i * 10) (w + 1) lines h10 hf).2 (by omega)
        refine ⟨0, by omega, by simpa using hle, by simpa using (by omega :
          lines + 1 < i * 10)⟩
    · intro hgt
      rw [lineno_width_go, if_neg (by omega)]

/-- C9 counterexample: the alignment width for a maximum of 9 is 2
(the loop compares against `lines + 1`), not `1 + floor(log10 9) = 1`
as the claim states. -/
theorem lineno_width_counterexample :
    lineno_width 9 = 2 ∧ 1 + Nat.log 10 9 = 1 := by
  constructor
  · rfl
  · rw [Nat.log_eq_zero_iff.mpr (Or.inl (by norm_num))]

/-- C9 (amended): for every maximum `max` computed by the alignment
pass (source line-number width, destination line-number width, score
width), the printed decimal width equals `1 + floor(log10(max + 1))` —
the `+ 1` coming from the loop bound `i <= lines + 1` in
`lineno_width`. -/
theorem lineno_width_log (srcMax dstMax scoreMax : Nat) :
    find_alignment_widths srcMax dstMax scoreMax =
      (1 + Nat.log 10 (srcMax + 1), 1 + Nat.log 10 (dstMax + 1),
        1 + Nat.log 10 (scoreMax + 1)) := by
  have key : ∀ lines : Nat, lineno_width lines = 1 + Nat.log 10 (lines + 1) := by
    intro lines
    unfold lineno_width
    have hspec := lineno_width_go_spec (lines + 2) 10 1 lines (by omega)
      (by omega)
    by_cases hle : 10 ≤ lines + 1
    · obtain ⟨k, hk1, hk2, hk3⟩ := hspec.1 hle
      rw [hk1]
      have hlog : Nat.log 10 (lines + 1) = k + 1 := by
        refine Nat.log_eq_of_pow_le_of_lt_pow ?_ ?_
        · calc (10 : Nat) ^ (k + 1) = 10 * 10 ^ k := by ring
            _ ≤ lines + 1 := hk2
        · calc lines + 1 < 10 * 10 ^ (k + 1) := hk3
            _ = 10 ^ (k + 1 + 1) := by ring
      omega
    · rw [hspec.2 (by omega)]
      have hlog : Nat.log 10 (lines + 1) = 0 := by
        refine Nat.log_eq_of_pow_le_of_lt_pow (by simp) ?_
        simpa using (by omega : lines + 1 < 10)
      omega
  unfold find_alignment_widths
  rw [key, key, key]

/-- C10 counterexample: the suffix `-5` is not a well-formed
non-negative decimal number, yet the resulting move threshold is not
the default 20: `strtoul` accepts the sign, negates in unsigned-long
arithmetic, and the value truncates to `2^32 - 5 = 4294967291`. -/
theorem parse_score_negative_counterexample :
    specNonNegDecimal ['-', '5'] = false ∧
      move_score_of ['-', '5'] = 4294967291 ∧
      (4294967291 : Nat) ≠ BLAME_DEFAULT_MOVE_SCORE := by
  refine ⟨by decide, ?_, by decide⟩
  decide

/-- C10 (amended): a score suffix that is absent or that `parse_score`
maps to zero — in particular one with trailing characters after the
`strtoul` parse, or one whose parsed value is divisible by `2^32` —
yields the built-in default threshold (20 for move, 40 for copy); any
other suffix (including a negative number, which wraps) yields its
parsed value truncated to 32 bits; consequently a threshold of zero can
never be configured through the command line. -/
theorem score_threshold_defaults :
    (move_score_of [] = BLAME_DEFAULT_MOVE_SCORE ∧
      copy_score_of [] = BLAME_DEFAULT_COPY_SCORE) ∧
    (∀ s, parse_score s = 0 → move_score_of s = BLAME_DEFAULT_MOVE_SCORE ∧
      copy_score_of s = BLAME_DEFAULT_COPY_SCORE) ∧
    (∀ s, parse_score s ≠ 0 → move_score_of s = parse_score s ∧
      copy_score_of s = parse_score s) ∧
    (∀ s, move_score_of s ≠ 0 ∧ copy_score_of s ≠ 0) := by
  have hz : ∀ s, parse_score s = 0 →
      move_score_of s = BLAME_DEFAULT_MOVE_SCORE ∧
        copy_score_of s = BLAME_DEFAULT_COPY_SCORE := by
    intro s h
    constructor
    · simp [move_score_of, h]
    · simp [copy_score_of, h]
  have hnz : ∀ s, parse_score s ≠ 0 → move_score_of s = parse_score s ∧
      copy_score_of s = parse_score s := by
    intro s h
    constructor
    · simp [move_score_of, h]
    · simp [copy_score_of, h]
  refine ⟨hz [] (by decide), hz, hnz, ?_⟩
  intro s
  by_cases h : parse_score s = 0
  · have := hz s h
    constructor
    · rw [this.1]; decide
    · rw [this.2]; decide
  · have := hnz s h
    constructor
    · rw [this.1]; exact h
    · rw [this.2]; exact h

theorem score_threshold_defaults_witness :
    move_score_of ['0'] = BLAME_DEFAULT_MOVE_SCORE ∧
      copy_score_of ['0'] = BLAME_DEFAULT_COPY_SCORE :=
  score_threshold_defaults.2.1 ['0'] (by decide)

/-- C6: in both the Mover (`find_move_in_parent`) and the Copier
(`find_copy_in_parent`), the retained best-scoring split is applied
only when the middle's score is strictly greater than the respective
threshold (`blame_move_score < score`, `blame_copy_score < score`); an
entry whose best middle scores at or below the threshold is left
unchanged.  The built-in defaults for these thresholds are 20 (move)
and 40 (copy). -/
theorem move_copy_threshold_strict (sb : Scoreboard) (mth cth : Nat)
    (l : List BlameEntry) (i : Nat)
    (s : SplitPart × SplitPart × SplitPart) :
    (ent_score sb (partEntry s.2.1) ≤ mth → move_split_apply sb mth l i s = l) ∧
    (s.2.1.suspect.isSome = true → mth < ent_score sb (partEntry s.2.1) →
      move_split_apply sb mth l i s = split_blame l i s) ∧
    (ent_score sb (partEntry s.2.1) ≤ cth → copy_split_apply sb cth l i s = l) ∧
    (s.2.1.suspect.isSome = true → cth < ent_score sb (partEntry s.2.1) →
      copy_split_apply sb cth l i s = split_blame l i s) ∧
    BLAME_DEFAULT_MOVE_SCORE = 20 ∧ BLAME_DEFAULT_COPY_SCORE = 40 := by
  refine ⟨?_, ?_, ?_, ?_, rfl, rfl⟩
  · intro h
    simp [move_split_apply, not_lt.mpr h]
  · intro h1 h2
    simp [move_split_apply, h1, h2]
  · intro h
    simp [copy_split_apply, not_lt.mpr h]
  · intro h1 h2
    simp [copy_split_apply, h1, h2]

theorem move_copy_threshold_strict_witness :
    move_split_apply ⟨[], []⟩ 20 []
      0 (⟨none, 0, 0, 0⟩, ⟨some default, 0, 0, 1⟩, ⟨none, 0, 0, 0⟩) = [] :=
  (move_copy_threshold_strict ⟨[], []⟩ 20 40 [] 0
    (⟨none, 0, 0, 0⟩, ⟨some default, 0, 0, 1⟩, ⟨none, 0, 0, 0⟩)).1 (by decide)

theorem dec_last_append (k : Nat) (cs : List Chunk) (c : Chunk) :
    dec_last k (cs ++ [c]) =
      cs ++ [{ c with p_next := c.p_next - (k : Int),
                      t_next := c.t_next - (k : Int) }] := by
  induction cs with
  | nil => rfl
  | cons x t ih =>
    cases t with
    | nil => rfl
    | cons y t2 =>
      simp only [List.cons_append] at ih ⊢
      rw [dec_last, ih]
      simp

theorem ctx_run_counts (k : Nat) :
    ∀ st : BlameDiffState, st.hunk_in_pre_context = false →
      (List.replicate k DiffLine.ctx).foldl process_u_diff st =
        { st with hunk_post_context := st.hunk_post_context + k,
                  hunk_in_pre_context := false } := by
  induction k with
  | zero =>
    intro st h
    cases st
    simp_all
  | succ k ih =>
    intro st h
    rw [List.replicate_succ, List.foldl_cons]
    have hstep : process_u_diff st DiffLine.ctx =
        { st with hunk_in_pre_context := false,
                  hunk_post_context := st.hunk_post_context + 1 } := by
      unfold process_u_diff
      rw [if_neg (by simp [h])]
    rw [hstep, ih _ rfl]
    cases st
    simp
    omega

/-- C4: for every parsed hunk header with 1-based preimage offset/length
`o1`/`l1` and postimage `o2`/`l2`, the patch adapter appends one chunk
with `same = off2` if `l2` is nonzero else `off2 + 1` (where
`off2 = o2 - 1` is the 0-based postimage offset), `p_next = off1 +
max(l1, 1)` and `t_next = same + l2`; trailing context lines before the
next hunk decrement the previous chunk's `p_next` and `t_next` by the
trailing-context count (`hunk_post_context`, which a run of context
lines not in pre-context accumulates), and `compare_buffer` applies the
same correction to the final chunk. -/
theorem patch_adapter_hunk_chunk (st : BlameDiffState) (o1 l1 o2 l2 : Nat)
    (cs : List Chunk) (c : Chunk) (k : Nat) :
    (st.hunk_post_context = 0 →
      (process_u_diff st (DiffLine.hunk o1 l1 o2 l2)).chunks =
        st.chunks ++
          [{ same := if l2 ≠ 0 then (o2 : Int) - 1 else (o2 : Int),
             p_next := (o1 : Int) - 1 + max (l1 : Int) 1,
             t_next := (if l2 ≠ 0 then (o2 : Int) - 1 else (o2 : Int))
               + (l2 : Int) }]) ∧
    (st.chunks = cs ++ [c] →
      (process_u_diff st (DiffLine.hunk o1 l1 o2 l2)).chunks =
        (cs ++ [{ c with
            p_next := c.p_next - (st.hunk_post_context : Int),
            t_next := c.t_next - (st.hunk_post_context : Int) }]) ++
          [{ same := if l2 ≠ 0 then (o2 : Int) - 1 else (o2 : Int),
             p_next := (o1 : Int) - 1 + max (l1 : Int) 1,
             t_next := (if l2 ≠ 0 then (o2 : Int) - 1 else (o2 : Int))
               + (l2 : Int) }]) ∧
    (∀ lines : List DiffLine,
      (lines.foldl process_u_diff ⟨[], 0, false⟩).chunks = cs ++ [c] →
      compare_buffer lines = cs ++
        [{ c with
           p_next := c.p_next -
             ((lines.foldl process_u_diff ⟨[], 0, false⟩).hunk_post_context
               : Int),
           t_next := c.t_next -
             ((lines.foldl process_u_diff ⟨[], 0, false⟩).hunk_post_context
               : Int) }]) ∧
    (st.hunk_in_pre_context = false →
      (List.replicate k DiffLine.ctx).foldl process_u_diff st =
        { st with hunk_post_context := st.hunk_post_context + k,
                  hunk_in_pre_context := false }) := by
  refine ⟨?_, ?_, ?_, fun hpre => ctx_run_counts k st hpre⟩
  · intro hpc
    unfold process_u_diff
    dsimp only
    rw [if_neg (by simp [hpc])]
    congr 1
    by_cases h2 : l2 = 0 <;> by_cases h1 : l1 = 0 <;>
      simp [h1, h2, Chunk.mk.injEq] <;> omega
  · intro hcs
    unfold process_u_diff
    dsimp only
    by_cases hk : st.hunk_post_context = 0
    · rw [if_neg (by simp [hk])]
      rw [hcs, hk]
      have hcc : ({ c with p_next := c.p_next - ((0 : Nat) : Int),
                           t_next := c.t_next - ((0 : Nat) : Int) } : Chunk)
          = c := by
        cases c; simp
      rw [hcc]
      congr 1
      by_cases h2 : l2 = 0 <;> by_cases h1 : l1 = 0 <;>
        simp [h1, h2, Chunk.mk.injEq] <;> omega
    · rw [if_pos ⟨by simp [hcs], hk⟩]
      rw [hcs, dec_last_append]
      congr 1
      by_cases h2 : l2 = 0 <;> by_cases h1 : l1 = 0 <;>
        simp [h1, h2, Chunk.mk.injEq] <;> omega
  · intro lines hfold
    unfold compare_buffer
    rw [if_pos (by rw [hfold]; simp)]
    rw [hfold, dec_last_append]

theorem patch_adapter_hunk_chunk_witness :
    (process_u_diff ⟨[], 0, false⟩ (DiffLine.hunk 3 2 4 5)).chunks =
      [{ same := 3, p_next := 4, t_next := 8 }] := by
  rw [(patch_adapter_hunk_chunk ⟨[], 0, false⟩ 3 2 4 5 [] default 0).1 rfl]
  decide

theorem pass_blame_scan_inl (parseOk : Nat → Bool)
    (fo : Nat → Nat → Option Origin) (fr : Nat → Origin → Option Origin)
    (origin po : Origin) (l : List BlameEntry) :
    ∀ (ps1 : List Nat) (p : Nat) (ps2 : List Nat),
      (∀ q ∈ ps1, parseOk q = true → ∀ po',
        resolve_parent fo fr q origin = some po' →
        po'.blob_sha1 ≠ origin.blob_sha1) →
      parseOk p = true → fo p origin.path = some po →
      po.blob_sha1 = origin.blob_sha1 →
      pass_blame_scan parseOk fo fr origin l (ps1 ++ p :: ps2) =
        Sum.inl (l.map fun e => if e.suspect.oid == origin.oid
          then { e with suspect := po } else e) := by
  intro ps1
  induction ps1 with
  | nil =>
    intro p ps2 hearly hp hfo hblob
    rw [List.nil_append]
    unfold pass_blame_scan
    rw [hp]
    simp only [Bool.not_true, Bool.false_eq_true, if_false]
    unfold resolve_parent
    rw [hfo]
    simp [hblob]
  | cons q qs ih =>
    intro p ps2 hearly hp hfo hblob
    have hrest := ih p ps2 (fun q' hq' => hearly q' (List.mem_cons_of_mem q hq'))
      hp hfo hblob
    rw [List.cons_append]
    unfold pass_blame_scan
    cases hq : parseOk q with
    | false =>
      simp only [hq, Bool.not_false, if_true]
      rw [hrest]
    | true =>
      simp only [hq, Bool.not_true, Bool.false_eq_true, if_false]
      cases hres : resolve_parent fo fr q origin with
      | none => rw [hrest]
      | some po' =>
        have hne : (po'.blob_sha1 == origin.blob_sha1) = false := by
          simpa using hearly q (List.mem_cons_self q qs) hq po' hres
        simp only [hne, Bool.false_eq_true, if_false]
        rw [hrest]

/-- C5: during parent resolution in `pass_blame`, if parent `p` is
reached (no earlier parseable parent resolved to an origin with an
equal blob digest) and an origin is found at the target's path in `p`
whose blob digest equals the target's, then every partition currently
accusing the target (by pointer identity) is rewritten to accuse that
parent origin, and `pass_blame` returns immediately: the result does
not depend on the remaining parents `ps2` nor on the propagation, move
and copy phases (`rest`). -/
theorem same_blob_short_circuit (parseOk : Nat → Bool)
    (fo : Nat → Nat → Option Origin) (fr : Nat → Origin → Option Origin)
    (rest : List (Option Origin) → List BlameEntry → List BlameEntry)
    (origin po : Origin) (parents : List Nat) (ps1 : List Nat) (p : Nat)
    (ps2 : List Nat) (l : List BlameEntry)
    (h16 : parents.take MAXPARENT = ps1 ++ p :: ps2)
    (hearly : ∀ q ∈ ps1, parseOk q = true → ∀ po',
      resolve_parent fo fr q origin = some po' →
      po'.blob_sha1 ≠ origin.blob_sha1)
    (hp : parseOk p = true)
    (hfo : fo p origin.path = some po)
    (hblob : po.blob_sha1 = origin.blob_sha1) :
    pass_blame parseOk fo fr rest origin parents l =
      l.map (fun e => if e.suspect.oid == origin.oid
        then { e with suspect := po } else e) := by
  unfold pass_blame
  rw [h16, pass_blame_scan_inl parseOk fo fr origin po l ps1 p ps2 hearly hp
    hfo hblob]

theorem same_blob_short_circuit_witness :
    pass_blame (fun _ => true) (fun _ _ => some ⟨1, 7, 3, 9⟩)
        (fun _ _ => none) (fun _ l => l) ⟨0, 8, 3, 9⟩ [5]
        [⟨0, 1, ⟨0, 8, 3, 9⟩, false, 0, 0⟩] =
      List.map (fun e => if e.suspect.oid == (⟨0, 8, 3, 9⟩ : Origin).oid
          then { e with suspect := ⟨1, 7, 3, 9⟩ } else e)
        [⟨0, 1, ⟨0, 8, 3, 9⟩, false, 0, 0⟩] :=
  same_blob_short_circuit (fun _ => true) (fun _ _ => some ⟨1, 7, 3, 9⟩)
    (fun _ _ => none) (fun _ l => l) ⟨0, 8, 3, 9⟩ ⟨1, 7, 3, 9⟩ [5] [] 5 []
    [⟨0, 1, ⟨0, 8, 3, 9⟩, false, 0, 0⟩] rfl
    (fun q hq => absurd hq (List.not_mem_nil q)) rfl rfl rfl

theorem phi_cons (rank : Nat → Nat) (e : BlameEntry) (t : List BlameEntry) :
    phi rank (e :: t) =
      (if e.guilty then 0 else (rank e.suspect.commit + 1) * e.num_lines.toNat)
        + phi rank t := by
  simp [phi]

theorem covers_num_pos {a b : Int} {l : List BlameEntry}
    (h : covers a b l = true) : ∀ e ∈ l, 1 ≤ e.num_lines := by
  induction l generalizing a with
  | nil => simp
  | cons e t ih =>
    rw [covers_cons] at h
    intro y hy
    rcases List.mem_cons.mp hy with rfl | hy
    · exact h.2.1
    · exact ih h.2.2.2 y hy

theorem coalesce_cond_facts {e f : BlameEntry}
    (h : (!cmp_suspect e.suspect f.suspect && e.guilty == f.guilty
      && e.s_lno + e.num_lines == f.s_lno) = true) :
    e.suspect.commit = f.suspect.commit ∧ e.guilty = f.guilty := by
  simp only [cmp_suspect, Bool.not_not, Bool.and_eq_true, beq_iff_eq] at h
  exact ⟨h.1.1.1, h.1.2⟩

theorem pos_mark (s : Origin) {l : List BlameEntry}
    (h : ∀ e ∈ l, 1 ≤ e.num_lines) :
    ∀ e ∈ mark_guilty s l, 1 ≤ e.num_lines := by
  intro e he
  unfold mark_guilty at he
  obtain ⟨x, hx, hmap⟩ := List.mem_map.mp he
  subst hmap
  split_ifs <;> exact h x hx

theorem pos_coalesce : ∀ {l : List BlameEntry},
    (∀ e ∈ l, 1 ≤ e.num_lines) → ∀ e ∈ coalesce l, 1 ≤ e.num_lines := by
  intro l
  induction l using coalesce.induct with
  | case1 => intro h e he; simp [coalesce] at he
  | case2 x =>
    intro h e he
    simp only [coalesce, List.mem_singleton] at he
    subst he
    exact h e (by simp)
  | case3 e f rest hcond ih =>
    intro h x hx
    rw [coalesce, if_pos hcond] at hx
    refine ih ?_ x hx
    intro y hy
    rcases List.mem_cons.mp hy with rfl | hy
    · have h1 := h e (by simp)
      have h2 := h f (by simp)
      show (1 : Int) ≤ e.num_lines + f.num_lines
      omega
    · exact h y (by simp [hy])
  | case4 e f rest hcond ih =>
    intro h x hx
    rw [coalesce, if_neg hcond] at hx
    rcases List.mem_cons.mp hx with rfl | hx
    · exact h x (by simp)
    · exact ih (fun y hy => h y (List.mem_cons_of_mem e hy)) x hx

theorem phi_coalesce (rank : Nat → Nat) : ∀ {l : List BlameEntry},
    (∀ e ∈ l, 1 ≤ e.num_lines) → phi rank (coalesce l) = phi rank l := by
  intro l
  induction l using coalesce.induct with
  | case1 => intro _; simp [coalesce]
  | case2 x => intro _; simp [coalesce]
  | case3 e f rest hcond ih =>
    intro h
    rw [coalesce, if_pos hcond]
    obtain ⟨hcm, hgu⟩ := coalesce_cond_facts hcond
    have h1 := h e (by simp)
    have h2 := h f (by simp)
    have hpos' : ∀ y ∈ ({ e with num_lines := e.num_lines + f.num_lines, score := 0 } : BlameEntry) :: rest, 1 ≤ y.num_lines := by
      intro y hy
      rcases List.mem_cons.mp hy with rfl | hy
      · show (1 : Int) ≤ e.num_lines + f.num_lines
        omega
      · exact h y (by simp [hy])
    rw [ih hpos', phi_cons, phi_cons, phi_cons]
    dsimp only
    have hval : (if e.guilty then 0
          else (rank e.suspect.commit + 1) * (e.num_lines + f.num_lines).toNat)
        = (if e.guilty then 0
            else (rank e.suspect.commit + 1) * e.num_lines.toNat)
          + (if f.guilty then 0
            else (rank f.suspect.commit + 1) * f.num_lines.toNat) := by
      by_cases hg : e.guilty
      · rw [if_pos hg, if_pos hg, if_pos (hgu ▸ hg)]
      · rw [if_neg hg, if_neg hg, if_neg (hgu ▸ hg)]
        rw [Int.toNat_add (by omega) (by omega), hcm, Nat.mul_add]
    omega
  | case4 e f rest hcond ih =>
    intro h
    rw [coalesce, if_neg hcond]
    rw [phi_cons, phi_cons]
    rw [ih (fun y hy => h y (List.mem_cons_of_mem e hy))]

theorem phi_mark_le (rank : Nat → Nat) (s : Origin) :
    ∀ l : List BlameEntry, phi rank (mark_guilty s l) ≤ phi rank l := by
  intro l
  induction l with
  | nil => simp [mark_guilty, phi]
  | cons e t ih =>
    unfold mark_guilty at ih ⊢
    rw [List.map_cons, phi_cons, phi_cons]
    cases hc : cmp_suspect e.suspect s with
    | true =>
      simp only [hc, Bool.not_true, Bool.false_eq_true, if_false]
      omega
    | false =>
      simp only [hc, Bool.not_false, if_true]
      have hz : (if ({ e with guilty := true } : BlameEntry).guilty = true
          then 0 else (rank ({ e with guilty := true } :
            BlameEntry).suspect.commit + 1)
            * ({ e with guilty := true } : BlameEntry).num_lines.toNat)
          = 0 := by simp
      omega

theorem phi_mark_lt (rank : Nat → Nat) (s : Origin) :
    ∀ l : List BlameEntry, (∀ e ∈ l, 1 ≤ e.num_lines) →
      has_unresolved s l = true →
      phi rank (mark_guilty s l) < phi rank l := by
  intro l
  induction l with
  | nil => intro _ h; simp [has_unresolved] at h
  | cons e t ih =>
    intro hpos hun
    unfold mark_guilty at ih ⊢
    rw [List.map_cons, phi_cons, phi_cons]
    have hle := phi_mark_le rank s t
    unfold mark_guilty at hle
    cases hc : cmp_suspect e.suspect s with
    | false =>
      cases hg : e.guilty with
      | false =>
        have hd : 1 ≤ (rank e.suspect.commit + 1) * e.num_lines.toNat := by
          have h1 := hpos e (by simp)
          have h2 : 0 < e.num_lines.toNat := by omega
          exact Nat.mul_pos (by omega) h2
        simp only [hc, Bool.not_false, if_true, hg, Bool.false_eq_true,
          if_false]
        have hz : (if ({ e with guilty := true } : BlameEntry).guilty = true
            then 0 else (rank ({ e with guilty := true } :
              BlameEntry).suspect.commit + 1)
              * ({ e with guilty := true } : BlameEntry).num_lines.toNat)
            = 0 := by simp
        omega
      | true =>
        have hun2 : has_unresolved s t = true := by
          unfold has_unresolved at hun ⊢
          rw [List.any_cons] at hun
          simpa [hg] using hun
        have hlt := ih (fun y hy => hpos y (List.mem_cons_of_mem e hy)) hun2
        simp only [hc, Bool.not_false, if_true, hg, if_true]
        have hz : (if ({ e with guilty := true } : BlameEntry).guilty = true
            then 0 else (rank ({ e with guilty := true } :
              BlameEntry).suspect.commit + 1)
              * ({ e with guilty := true } : BlameEntry).num_lines.toNat)
            = 0 := by simp
        omega
    | true =>
      have hun2 : has_unresolved s t = true := by
        unfold has_unresolved at hun ⊢
        rw [List.any_cons] at hun
        simpa [hc] using hun
      have hlt := ih (fun y hy => hpos y (List.mem_cons_of_mem e hy)) hun2
      simp only [hc, Bool.not_true, Bool.false_eq_true, if_false]
      omega

theorem find_first_unresolved_none {l : List BlameEntry}
    (h : find_first_unresolved l = none) : ∀ e ∈ l, e.guilty = true := by
  induction l with
  | nil => simp
  | cons e t ih =>
    unfold find_first_unresolved at h
    intro y hy
    cases hg : e.guilty with
    | false => rw [if_pos (by simp [hg])] at h; exact absurd h (by simp)
    | true =>
      rw [if_neg (by simp [hg])] at h
      rcases List.mem_cons.mp hy with rfl | hy
      · exact hg
      · exact ih h y hy

theorem find_first_unresolved_some {l : List BlameEntry} {s : Origin}
    (h : find_first_unresolved l = some s) : has_unresolved s l = true := by
  induction l with
  | nil => simp [find_first_unresolved] at h
  | cons e t ih =>
    unfold find_first_unresolved at h
    unfold has_unresolved
    rw [List.any_cons]
    cases hg : e.guilty with
    | false =>
      rw [if_pos (by simp [hg])] at h
      have hs : e.suspect = s := by simpa using h
      subst hs
      simp [hg, cmp_suspect]
    | true =>
      rw [if_neg (by simp [hg])] at h
      have := ih h
      unfold has_unresolved at this
      simp [this]

theorem assign_blame_fuel_spec (rank : Nat → Nat)
    (pb : Origin → List BlameEntry → List BlameEntry)
    (hpb : pass_blame_ok rank pb) :
    ∀ (fuel : Nat) (l : List BlameEntry), phi rank l < fuel →
      (∀ e ∈ l, 1 ≤ e.num_lines) →
      ∃ r, assign_blame pb fuel l = some r ∧ ∀ e ∈ r, e.guilty = true := by
  intro fuel
  induction fuel with
  | zero => intro l h _; omega
  | succ fuel ih =>
    intro l hphi hpos
    rw [assign_blame]
    cases hf : find_first_unresolved l with
    | none => exact ⟨l, rfl, find_first_unresolved_none hf⟩
    | some s =>
      have hun := find_first_unresolved_some hf
      obtain ⟨hle, himp, hposp⟩ := hpb s l
      have hpos1 : ∀ e ∈ pb s l, 1 ≤ e.num_lines := hposp hpos
      have hpos2 : ∀ e ∈ mark_guilty s (pb s l), 1 ≤ e.num_lines :=
        pos_mark s hpos1
      have hpos3 : ∀ e ∈ coalesce (mark_guilty s (pb s l)), 1 ≤ e.num_lines :=
        pos_coalesce hpos2
      have hlt : phi rank (coalesce (mark_guilty s (pb s l))) < phi rank l := by
        rw [phi_coalesce rank hpos2]
        rcases himp hun with h1 | h1
        · exact lt_of_lt_of_le (phi_mark_lt rank s (pb s l) hpos1 h1) hle
        · exact lt_of_le_of_lt (phi_mark_le rank s (pb s l)) h1
      exact ih (coalesce (mark_guilty s (pb s l))) (by omega) hpos3

/-- C2: for every scoreboard whose partition sequence satisfies the §3
invariants (`covers`, of which the proof uses that every entry has at
least one line) and for every behaviour of the per-suspect `pass_blame`
step satisfying `pass_blame_ok` — what the code guarantees over a
finite commit DAG, with `rank` a function decreasing from child to
parent: blame is only ever reassigned to strictly lower-ranked parent
origins, lines are conserved, nothing is marked guilty by the pass
itself — the driver loop `assign_blame` terminates within `phi rank l +
1` iterations (so the C `while (1)` loop terminates), and when it
returns every blame entry in the sequence is guilty. -/
theorem assign_blame_terminates_all_guilty (rank : Nat → Nat)
    (pb : Origin → List BlameEntry → List BlameEntry)
    (hpb : pass_blame_ok rank pb) (rs re : Int) (l : List BlameEntry)
    (hcov : covers rs re l = true) :
    ∃ r, assign_blame pb (phi rank l + 1) l = some r ∧
      ∀ e ∈ r, e.guilty = true :=
  assign_blame_fuel_spec rank pb hpb (phi rank l + 1) l (by omega)
    (covers_num_pos hcov)

theorem assign_blame_terminates_all_guilty_witness :
    ∃ r, assign_blame (fun _ l => l)
        (phi (fun _ => 0) [⟨0, 1, ⟨0, 0, 0, 0⟩, false, 0, 0⟩] + 1)
        [⟨0, 1, ⟨0, 0, 0, 0⟩, false, 0, 0⟩] = some r ∧
      ∀ e ∈ r, e.guilty = true :=
  assign_blame_terminates_all_guilty (fun _ => 0) (fun _ l => l)
    (fun _ _ => ⟨le_refl _, fun h => Or.inl h, fun hp => hp⟩) 0 1
    [⟨0, 1, ⟨0, 0, 0, 0⟩, false, 0, 0⟩] (by decide)
